import Mathlib

/-!
Verification development for the `slog::log_store` template
(`src/core/include/logstore.h`) and the versioned aggregate component
(`aggregate.h`, provided as an unnamed source file) of the confluo repository.

The C++ code is shallowly embedded: `uint32_t`/`uint64_t` arithmetic is
rendered on `ℕ` with explicit `% 2^32` / `% 2^64` where the machine width
matters, pointer reads into the byte log use `ℤ` indices (pointer arithmetic
such as `data_log_ - prefix_len` can move before the start of the buffer),
fallible operations return `Option` (an operation that never returns is
`none`: a thrown exception, a commit CAS that can never succeed and would
spin forever in the sequential rendering, or an n-gram publication loop
whose `uint32_t` bound `value_end - NGRAM_N` wraps to 2^32 - 1 so that its
guard `i <= value_end - NGRAM_N` never fails).  The byte log
`new char[LOG_SIZE]` is modelled as a total function `ℤ → ℕ`; its unwritten
cells are modelled as the byte 0.
-/

namespace Slog

/-- Modelled from the spec: the n-gram width `NGRAM_N` is defined in
`ngram_idx.h`, which is not among the sources; the spec fixes it as the
n-gram width, "fixed; typically 3", and the concrete scenarios of the spec
and the claims all use 3. -/
def NGRAM_N : ℕ := 3

/-- Default value of the `MAX_KEYS` template parameter of `log_store`. -/
def MAX_KEYS_DEFAULT : ℕ := 134217728

/-- Default value of the `LOG_SIZE` template parameter of `log_store`
(`UINT_MAX`). -/
def LOG_SIZE_DEFAULT : ℕ := 4294967295

/-- `KEY_INCR = 1ULL << 32`: the internal key component of the tail
increment for appends and updates. -/
def KEY_INCR : ℕ := 2 ^ 32

/-- `DEL_INCR = 1ULL`: the tail increment for a delete operation. -/
def DEL_INCR : ℕ := 1

/-- High 32 bits of a packed 64-bit tail word (the C expression
`tail >> 32`). -/
def tailKey (t : ℕ) : ℕ := t >>> 32

/-- Low 32 bits of a packed 64-bit tail word (the C expression
`tail & 0xFFFFFFFF`). -/
def tailOff (t : ℕ) : ℕ := t &&& 0xFFFFFFFF

/-- 32-bit unsigned subtraction: the C expressions `end - start` and
`value_end - NGRAM_N` are evaluated on `uint32_t` and wrap around. -/
def u32sub (a b : ℕ) : ℕ := (a + 2 ^ 32 - b) % 2 ^ 32

/-- State of a `log_store` instance.  `value_offsets` and `deleted` are the
dense arrays `value_offset_list` / `deleted_offsets` of `kvmap.h` (not among
the sources); following the spec they are modelled as total maps from
internal keys to 32-bit values, 0-initialized.  `index_log` is the n-gram
index of `ngram_idx.h`, modelled from the spec as a map from each N-byte
gram to its append-only posting list of offsets. -/
structure LogStore where
  data_log : ℤ → ℕ
  write_tail : ℕ
  read_tail : ℕ
  value_offsets : ℕ → ℕ
  deleted : ℕ → ℕ
  index_log : List ℕ → List ℕ

/-- A freshly constructed `log_store`: both tails 0, tables empty. -/
def initLogStore : LogStore where
  data_log := fun _ => 0
  write_tail := 0
  read_tail := 0
  value_offsets := fun _ => 0
  deleted := fun _ => 0
  index_log := fun _ => []

/-- `increment_tail(value_length) = KEY_INCR | value_length`. -/
def increment_tail (value_length : ℕ) : ℕ := KEY_INCR ||| value_length

/-- `atomic_advance_write_tail`: fetch-and-add on the 64-bit write tail,
returning the pre-increment value. -/
def atomic_advance_write_tail (s : LogStore) (tail_increment : ℕ) : LogStore × ℕ :=
  ({ s with write_tail := (s.write_tail + tail_increment) % 2 ^ 64 }, s.write_tail)

/-- `atomic_advance_read_tail`: a CAS loop that spins until the read tail
equals `expected_append_tail` and then advances it.  In this sequential
rendering the CAS either succeeds at once or (no other thread being able to
intervene) spins forever, which is modelled as `none`. -/
def atomic_advance_read_tail (s : LogStore) (expected_append_tail tail_increment : ℕ) :
    Option LogStore :=
  if s.read_tail = expected_append_tail then
    some { s with read_tail := (expected_append_tail + tail_increment) % 2 ^ 64 }
  else none

/-- The N bytes of the log starting at offset `i` (the gram that
`add_offset(data_log_ + i, i)` keys on). -/
def gramAt (log : ℤ → ℕ) (i : ℕ) : List ℕ :=
  (List.range NGRAM_N).map fun j => log ((i : ℤ) + (j : ℤ))

/-- Modelled from the spec: `ngram_index::add_offset(data_log_ + i, i)`
(`ngram_idx.h` is not among the sources) appends offset `i` to the
append-only posting list of the N-byte gram starting at `i`
(spec section 4.3). -/
def add_offset (idx : List ℕ → List ℕ) (log : ℤ → ℕ) (i : ℕ) : List ℕ → List ℕ :=
  fun g => if g = gramAt log i then idx g ++ [i] else idx g

/-- Publication of the whole loop
`for (i = value_offset; i <= value_end - NGRAM_N; i++) add_offset(...)`. -/
def addOffsets (idx : List ℕ → List ℕ) (log : ℤ → ℕ) (offs : List ℕ) : List ℕ → List ℕ :=
  offs.foldl (fun P i => add_offset P log i) idx

/-- The loop bound `value_end - NGRAM_N` of the n-gram publication loop,
evaluated on `uint32_t` (it wraps around when `value_end < NGRAM_N`). -/
def pubBound (value_end : ℕ) : ℕ := u32sub value_end NGRAM_N

/-- The offsets published by the n-gram loop of `internal_append` (the
values taken by the `uint32_t` counter `i` running from `value_offset`
while `i <= value_end - NGRAM_N`, on its first sweep). -/
def publishedOffsets (value_offset value_end : ℕ) : List ℕ :=
  if value_offset ≤ pubBound value_end then
    List.range' value_offset (pubBound value_end + 1 - value_offset)
  else []

/-- Boolean form of membership in `publishedOffsets`: the loop guard
`value_offset ≤ i ∧ i ≤ value_end - NGRAM_N` on `uint32_t`. -/
def publishes (value_offset value_end i : ℕ) : Bool :=
  decide (value_offset ≤ i) && decide (i ≤ pubBound value_end)

/-- `memcpy(data_log_ + value_offset, value.c_str(), value_length)`. -/
def memcpy (log : ℤ → ℕ) (off : ℕ) (value : List ℕ) : ℤ → ℕ :=
  fun p =>
    if (off : ℤ) ≤ p ∧ p < (off : ℤ) + value.length then value.getD (p - (off : ℤ)).toNat 0
    else log p

/-- `internal_append`: claims a tail increment, bounds-checks, writes the
offset/delete tables, copies the value into the log and publishes the
n-gram postings.  Returns the pre-increment tail.  A thrown exception
(`throw -1`) is `none`; so is the case `value_end = NGRAM_N - 1`, where the
`uint32_t` publication-loop bound `value_end - NGRAM_N` wraps to 2^32 - 1,
its guard `i <= value_end - NGRAM_N` never fails, and the loop (and hence
the append) never finishes.  `value_length` is the `uint32_t` truncation of
`value.length()`. -/
def internal_append (MAX_KEYS LOG_SIZE : ℕ) (s : LogStore) (value : List ℕ) :
    Option (LogStore × ℕ) :=
  let value_length := value.length % 2 ^ 32
  let tail_increment := increment_tail value_length
  let claimed := atomic_advance_write_tail s tail_increment
  let s1 := claimed.1
  let current_tail := claimed.2
  let internal_key := tailKey current_tail
  let value_offset := tailOff current_tail
  if internal_key ≥ MAX_KEYS ∨ (value_offset + value_length) % 2 ^ 32 ≥ LOG_SIZE then none
  else
    let value_end := (value_offset + value_length) % 2 ^ 32
    if pubBound value_end = 2 ^ 32 - 1 then none
    else
      let log1 := memcpy s1.data_log value_offset (value.take value_length)
      some
        ({ s1 with
            value_offsets := Function.update s1.value_offsets internal_key value_offset
            deleted := Function.update s1.deleted internal_key 0
            data_log := log1
            index_log := addOffsets s1.index_log log1 (publishedOffsets value_offset value_end) },
          current_tail)

/-- `append`: internal append followed by the commit of the read tail.  The
C function returns the int 0; the internal key it assigned,
`current_tail >> 32`, is returned here alongside the state (it is the key
the spec-level facade reports). -/
def append (MAX_KEYS LOG_SIZE : ℕ) (s : LogStore) (value : List ℕ) :
    Option (LogStore × ℕ) := do
  let r ← internal_append MAX_KEYS LOG_SIZE s value
  let tail_increment := increment_tail (value.length % 2 ^ 32)
  let s2 ← atomic_advance_read_tail r.1 r.2 tail_increment
  pure (s2, tailKey r.2)

/-- The copy loop of `get`:
`for (; i < end - start && data_ptr[i] != 0; i++) value[i] = data_ptr[i];`
copies bytes until the count is exhausted or a NUL byte is read. -/
def copyUntilNul (log : ℤ → ℕ) (p : ℤ) : ℕ → List ℕ
  | 0 => []
  | n + 1 => if log p = 0 then [] else log p :: copyUntilNul log (p + 1) n

/-- `get`: fetch a value by internal key from the committed part of the
store; `none` models the int return -1 (miss). -/
def get (s : LogStore) (internal_key : ℕ) : Option (List ℕ) :=
  let current_tail := s.read_tail
  let max_key := tailKey current_tail
  if internal_key ≥ max_key then none
  else
    let delete_tail := s.deleted internal_key
    let read_tail := tailOff current_tail
    if delete_tail ≠ 0 ∧ read_tail ≥ delete_tail then none
    else
      let start := s.value_offsets internal_key
      let stop :=
        if internal_key + 1 < max_key then s.value_offsets (internal_key + 1)
        else tailOff current_tail
      some (copyUntilNul s.data_log (start : ℤ) (u32sub stop start))

/-- `strncmp(a, b, n) == 0` where `a` points into the byte log at index `p`
and `b` is a slice of the query (whose C string is NUL-terminated):
compares up to `n` bytes, stopping early when both strings hit an equal NUL
byte. -/
def strncmpEq (log : ℤ → ℕ) (p : ℤ) : List ℕ → ℕ → Bool
  | _, 0 => true
  | [], _ + 1 => decide (log p = 0)
  | c :: rest, n + 1 =>
    if log p = c then (if c = 0 then true else strncmpEq log (p + 1) rest n) else false

/-- The binary-search loop of `find_and_insert_key`, written with explicit
fuel (each iteration strictly shrinks `hi - lo`, so fuel `hi - lo`
reproduces the `while (lo < hi)` loop exactly). -/
def bsearchGo (value_offsets : ℕ → ℕ) (offset : ℕ) : ℕ → ℕ → ℕ → ℕ
  | 0, lo, _ => lo
  | fuel + 1, lo, hi =>
    if lo < hi then
      let mid := lo + (hi - lo) / 2
      if value_offsets mid ≤ offset then bsearchGo value_offsets offset fuel (mid + 1) hi
      else bsearchGo value_offsets offset fuel lo mid
    else lo

/-- The binary search of `find_and_insert_key` over `[lo, hi)`. -/
def bsearch (value_offsets : ℕ → ℕ) (offset lo hi : ℕ) : ℕ :=
  bsearchGo value_offsets offset (hi - lo) lo hi

/-- `internal_key = lo - 1` computed after the binary search, on
`uint32_t` (wrapping when `lo = 0`). -/
def resolveKey (value_offsets : ℕ → ℕ) (offset max_key : ℕ) : ℕ :=
  (bsearch value_offsets offset 0 max_key + 2 ^ 32 - 1) % 2 ^ 32

/-- `find_and_insert_key` (the `std::set` overload used by `search`):
binary-search the offset table for the owning key, drop it when it was
deleted before the snapshot, otherwise insert it. -/
def find_and_insert_key (s : LogStore) (keys : Finset ℕ) (offset max_key max_off : ℕ) :
    Finset ℕ :=
  let internal_key := resolveKey s.value_offsets offset max_key
  let delete_tail := s.deleted internal_key
  if delete_tail ≠ 0 ∧ max_off ≥ delete_tail then keys
  else insert internal_key keys

/-- `search`: snapshot the read tail, fetch the posting lists of the first
and last gram of the query, scan the shorter one, re-compare the remainder
of the query against the log bytes, and resolve surviving offsets to keys.
The byte-log reads follow the pointer arithmetic of the source: the prefix
branch reads from `data_log_ + NGRAM_N + off`, the suffix branch from
`data_log_ + off - prefix_len` (an `ℤ` index, which is negative when
`off < prefix_len`). -/
def search (s : LogStore) (query : List ℕ) : Finset ℕ :=
  let current_tail := s.read_tail
  let max_key := tailKey current_tail
  let max_off := tailOff current_tail
  let prefix_offsets := s.index_log (query.take NGRAM_N)
  let suffix_offsets := s.index_log ((query.drop (query.length - NGRAM_N)).take NGRAM_N)
  if prefix_offsets.length < suffix_offsets.length then
    let suffixRem := query.drop NGRAM_N
    let suffix_len := query.length - NGRAM_N
    prefix_offsets.foldl
      (fun results off =>
        if off < max_off ∧ strncmpEq s.data_log ((NGRAM_N : ℤ) + (off : ℤ)) suffixRem suffix_len = true
        then find_and_insert_key s results off max_key max_off
        else results)
      ∅
  else
    let prefix_len := query.length - NGRAM_N
    suffix_offsets.foldl
      (fun results off =>
        if off < max_off ∧ strncmpEq s.data_log ((off : ℤ) - (prefix_len : ℤ)) (query.take prefix_len) prefix_len = true
        then find_and_insert_key s results off max_key max_off
        else results)
      ∅

/-- Instrumentation of the suffix branch of `search`: the candidate offsets
that the branch actually hands to `strncmp` (those passing its only filter
`off < max_off`), paired with the byte-log index at which that comparison
starts reading, `off - prefix_len` (pointer arithmetic, so an `ℤ`). -/
def suffixBranchReads (s : LogStore) (query : List ℕ) : List (ℕ × ℤ) :=
  let max_off := tailOff s.read_tail
  let prefix_offsets := s.index_log (query.take NGRAM_N)
  let suffix_offsets := s.index_log ((query.drop (query.length - NGRAM_N)).take NGRAM_N)
  let prefix_len := query.length - NGRAM_N
  if prefix_offsets.length < suffix_offsets.length then []
  else
    (suffix_offsets.filter fun off => decide (off < max_off)).map fun off =>
      (off, (off : ℤ) - (prefix_len : ℤ))

/-- Modelled from the spec: `deleted_offsets::update(i, token)` from
`kvmap.h` (not among the sources) is the CAS-like conditional write
"set 0 → token" that succeeds only if the current marker is 0
(spec section 4.2). -/
def deleted_update (s : LogStore) (internal_key token : ℕ) : LogStore × Bool :=
  if s.deleted internal_key = 0 then
    ({ s with deleted := Function.update s.deleted internal_key token }, true)
  else (s, false)

/-- `invalidate_key(internal_key, offset) = deleted_->update(internal_key, offset)`. -/
def invalidate_key (s : LogStore) (internal_key offset : ℕ) : LogStore × Bool :=
  deleted_update s internal_key offset

/-- `delete_record`: claim one tail byte, bounds-check, refuse keys not yet
created, CAS the tombstone; on a winning CAS commit the read tail and
return true; on a losing CAS return false (the source does not commit on
this path). -/
def delete_record (LOG_SIZE : ℕ) (s : LogStore) (internal_key : ℕ) :
    Option (LogStore × Bool) :=
  let claimed := atomic_advance_write_tail s DEL_INCR
  let s1 := claimed.1
  let current_tail := claimed.2
  let value_offset := tailOff current_tail
  if (value_offset + 1) % 2 ^ 32 ≥ LOG_SIZE then none
  else if internal_key ≥ tailKey current_tail then some (s1, false)
  else
    match invalidate_key s1 internal_key ((value_offset + 1) % 2 ^ 32) with
    | (s2, true) => (atomic_advance_read_tail s2 current_tail DEL_INCR).map fun s3 => (s3, true)
    | (s2, false) => some (s2, false)

/-- `update_record`: append the new value, then invalidate the old key with
the token written in the source as `current_tail & 0xFFFFFFFF + 1`.  C
precedence parses that expression as `current_tail & (0xFFFFFFFF + 1)`; the
addition is unsigned 32-bit arithmetic and wraps to 0, and the `&` result
is then truncated to the `uint32_t` parameter of `invalidate_key`.  Commits
and returns the new internal key `current_tail >> 32`. -/
def update_record (MAX_KEYS LOG_SIZE : ℕ) (s : LogStore) (internal_key : ℕ)
    (value : List ℕ) : Option (LogStore × ℕ) := do
  let r ← internal_append MAX_KEYS LOG_SIZE s value
  let tail_increment := increment_tail (value.length % 2 ^ 32)
  let token := (r.2 &&& (0xFFFFFFFF + 1) % 2 ^ 32) % 2 ^ 32
  let s2 := (invalidate_key r.1 internal_key token).1
  let s3 ← atomic_advance_read_tail s2 r.2 tail_increment
  pure (s3, tailKey r.2)

/-- `get_num_keys`: the number of committed keys, `read_tail_ >> 32`. -/
def get_num_keys (s : LogStore) : ℕ := tailKey s.read_tail

/-- `get_size`: the committed size, `read_tail_ & 0xFFFFFFFF`. -/
def get_size (s : LogStore) : ℕ := tailOff s.read_tail

/-- `get_gap`: `write_tail_ - read_tail_` on `uint64_t`. -/
def get_gap (s : LogStore) : ℕ := (s.write_tail + 2 ^ 64 - s.read_tail) % 2 ^ 64

/-- An operation of the log-store facade, for sequential execution traces. -/
inductive Op where
  | app (value : List ℕ)
  | del (internal_key : ℕ)
  | upd (internal_key : ℕ) (value : List ℕ)

/-- The number of bytes an operation claims from the offset half of the
write tail: the (truncated) value length for appends and updates, one
tombstone byte for deletes. -/
def opBytes : Op → ℕ
  | .app v => v.length % 2 ^ 32
  | .del _ => 1
  | .upd _ v => v.length % 2 ^ 32

/-- Execute one facade operation, keeping only the state. -/
def runOp (MAX_KEYS LOG_SIZE : ℕ) (s : LogStore) : Op → Option LogStore
  | .app v => (append MAX_KEYS LOG_SIZE s v).map fun r => r.1
  | .del i => (delete_record LOG_SIZE s i).map fun r => r.1
  | .upd i v => (update_record MAX_KEYS LOG_SIZE s i v).map fun r => r.1

/-- Execute a sequential trace of facade operations. -/
def run (MAX_KEYS LOG_SIZE : ℕ) : LogStore → List Op → Option LogStore
  | s, [] => some s
  | s, op :: rest =>
    match runOp MAX_KEYS LOG_SIZE s op with
    | none => none
    | some s1 => run MAX_KEYS LOG_SIZE s1 rest

end Slog

namespace Confluo

/-- An `aggregator`: the `{zero, seq_op, comb_op}` triple over `numeric`
(a tagged union over fixed numeric types, modelled here over `ℤ`). -/
structure Aggregator where
  zero : ℤ
  seq_op : ℤ → ℤ → ℤ
  comb_op : ℤ → ℤ → ℤ

/-- An `aggregate_node` chain (`(value_, version_, next_)` cells reached
from the head pointer) is a list of (value, version) pairs, head first. -/
abbrev Chain := List (ℤ × ℕ)

/-- The traversal loop of `aggregate_list::get_node`, with its `ret`
and `max_version` accumulators (`max_version` starts at 0). -/
def get_node_go (version : ℕ) : Chain → Option (ℤ × ℕ) → ℕ → Option (ℤ × ℕ)
  | [], ret, _ => ret
  | node :: rest, ret, max_version =>
    if node.2 = version then some node
    else if node.2 < version ∧ node.2 > max_version then get_node_go version rest (some node) node.2
    else get_node_go version rest ret max_version

/-- `aggregate_list::get_node(head, version)`. -/
def get_node (head : Chain) (version : ℕ) : Option (ℤ × ℕ) :=
  match head with
  | [] => none
  | _ => get_node_go version head none 0

/-- `aggregate_list::get(version)`: the value of the node `get_node`
returns, or the aggregator's zero. -/
def list_get (agg : Aggregator) (chain : Chain) (version : ℕ) : ℤ :=
  match get_node chain version with
  | some node => node.1
  | none => agg.zero

/-- `aggregate_list::seq_update(value, version)`: prepend a node carrying
`seq_op(old_agg, value)` at `version`, where `old_agg` is the value of the
node `get_node` finds (or zero). -/
def seq_update (agg : Aggregator) (chain : Chain) (value : ℤ) (version : ℕ) : Chain :=
  let old_agg :=
    match get_node chain version with
    | some node => node.1
    | none => agg.zero
  (agg.seq_op old_agg value, version) :: chain

/-- `aggregate::seq_update(thread_id, value, version)`: the sharded
aggregate holds one chain per thread and updates the chain of the calling
thread. -/
def agg_seq_update (agg : Aggregator) (chains : List Chain) (thread_id : ℕ) (value : ℤ)
    (version : ℕ) : List Chain :=
  chains.set thread_id (seq_update agg (chains.getD thread_id []) value version)

/-- `aggregate::get(version)`: fold the per-thread chains with `comb_op`
starting from zero. -/
def agg_get (agg : Aggregator) (chains : List Chain) (version : ℕ) : ℤ :=
  chains.foldl (fun val c => agg.comb_op val (list_get agg c version)) agg.zero

/-- The documented contract of `get_node` (its doc comment in the source):
the node with the largest version smaller than or equal to the given
version, if any. -/
def spec_get_node (chain : Chain) (version : ℕ) : Option (ℤ × ℕ) :=
  (chain.filter fun node => decide (node.2 ≤ version)).foldl
    (fun best node =>
      match best with
      | none => some node
      | some m => if m.2 < node.2 then some node else some m)
    none

/-- `aggregate_list::get` as documented: value of the greatest-version-≤
node, or zero. -/
def spec_list_get (agg : Aggregator) (chain : Chain) (version : ℕ) : ℤ :=
  match spec_get_node chain version with
  | some node => node.1
  | none => agg.zero

/-- `aggregate::get` as documented: fold the documented per-chain values
with `comb_op` starting from zero. -/
def spec_agg_get (agg : Aggregator) (chains : List Chain) (version : ℕ) : ℤ :=
  chains.foldl (fun val c => agg.comb_op val (spec_list_get agg c version)) agg.zero

/-- The sum aggregator of the spec's aggregate scenario:
`seq_op = comb_op = +`, `zero = 0`. -/
def sumAggregator : Aggregator where
  zero := 0
  seq_op := fun a b => a + b
  comb_op := fun a b => a + b

end Confluo

namespace Slog

/-- The store after `append("abc")` on a fresh store with the default
template parameters. -/
def abcStore : LogStore :=
  ((append MAX_KEYS_DEFAULT LOG_SIZE_DEFAULT initLogStore [97, 98, 99]).map fun r => r.1).getD
    initLogStore

/-- The store after `append("aaaa")` on a fresh store with the default
template parameters. -/
def aaaaStore : LogStore :=
  ((append MAX_KEYS_DEFAULT LOG_SIZE_DEFAULT initLogStore [97, 97, 97, 97]).map fun r => r.1).getD
    initLogStore

/-- `abcStore` after a first (winning) `delete_record(0)`. -/
def abcDeletedStore : LogStore :=
  ((delete_record LOG_SIZE_DEFAULT abcStore 0).map fun r => r.1).getD initLogStore

/-- A store whose offset table is the ramp `i ↦ 2 * i` (used to witness the
offset-to-key resolution theorem at a concrete monotone table). -/
def rampStore : LogStore :=
  { initLogStore with value_offsets := fun i => 2 * i }

/-- A store holding one committed 3-byte value whose gram `"abc"` has the
single posting 0 (used to witness the length-N search theorem). -/
def gramStore : LogStore :=
  { initLogStore with
      write_tail := 2 ^ 32 + 3
      read_tail := 2 ^ 32 + 3
      index_log := fun g => if g = [97, 98, 99] then [0] else [] }

/-- The store after the two-value append trace used to witness the
round-trip theorem (the first value has 3 bytes, so no append's end offset
hits the nonterminating `NGRAM_N - 1` case). -/
def roundtripStore : LogStore :=
  (run MAX_KEYS_DEFAULT LOG_SIZE_DEFAULT initLogStore
      [Op.app [104, 105, 106], Op.app [119, 120]]).getD initLogStore

/-- The store after the two-append trace used to witness the offset
monotonicity theorem. -/
def monoWitnessStore : LogStore :=
  (run MAX_KEYS_DEFAULT LOG_SIZE_DEFAULT initLogStore
      [Op.app [5], Op.app [6, 7]]).getD initLogStore

/-- The trace of three appends whose middle value makes the `uint32_t`
bounds check `value_offset + value_length >= LOG_SIZE` wrap around:
4294967294 bytes, then 7 bytes (end offset 4294967301 ≡ 5 (mod 2^32)),
then 1 byte. -/
def wrapOps : List Op :=
  [Op.app (List.replicate 4294967294 97), Op.app (List.replicate 7 97), Op.app [97]]

/-- Invariant used for the offset-monotonicity theorem: the two tails are a
common key half `k` with offset halves `offR ≤ off < 2^32`, at most
`MAX_KEYS` keys exist, and the offset table is monotone below `k` and
bounded by the committed offset. -/
def C9Inv (MAX_KEYS : ℕ) (s : LogStore) : Prop :=
  ∃ k off offR,
    s.write_tail = k * 2 ^ 32 + off ∧ s.read_tail = k * 2 ^ 32 + offR ∧
    offR ≤ off ∧ off < 2 ^ 32 ∧ k ≤ MAX_KEYS ∧
    (∀ i, i + 1 < k → s.value_offsets i ≤ s.value_offsets (i + 1)) ∧
    (∀ i, i < k → s.value_offsets i ≤ offR)

/-- Invariant used for the append-only round-trip theorem: both tails are
equal and split as `k * 2^32 + off` with `off < 2^32`, and the offset table
is monotone below `k` and bounded by `off`. -/
def GoodC3 (MAX_KEYS : ℕ) (s : LogStore) : Prop :=
  ∃ k off,
    s.write_tail = k * 2 ^ 32 + off ∧ s.read_tail = s.write_tail ∧
    off < 2 ^ 32 ∧ k ≤ MAX_KEYS ∧
    (∀ i, i + 1 < k → s.value_offsets i ≤ s.value_offsets (i + 1)) ∧
    (∀ i, i < k → s.value_offsets i ≤ off) ∧
    (∀ i, s.deleted i = 0)

end Slog
namespace Slog

theorem tailKey_mk (k off : ℕ) (h : off < 2 ^ 32) : tailKey (k * 2 ^ 32 + off) = k := by
  unfold tailKey
  rw [Nat.shiftRight_eq_div_pow]
  omega

theorem tailOff_mk (k off : ℕ) (h : off < 2 ^ 32) : tailOff (k * 2 ^ 32 + off) = off := by
  unfold tailOff
  have h1 : (0xFFFFFFFF : ℕ) = 2 ^ 32 - 1 := by norm_num
  rw [h1, Nat.and_pow_two_sub_one_eq_mod]
  omega

theorem increment_tail_eq (n : ℕ) (h : n < 2 ^ 32) : increment_tail n = 2 ^ 32 + n := by
  have h2 := Nat.mul_add_lt_is_or h 1
  simp only [Nat.mul_one] at h2
  unfold increment_tail KEY_INCR
  exact h2.symm

theorem u32sub_eq (a b : ℕ) (hba : b ≤ a) (ha : a - b < 2 ^ 32) : u32sub a b = a - b := by
  unfold u32sub
  omega

theorem mem_publishedOffsets (vo ve i : ℕ) :
    i ∈ publishedOffsets vo ve ↔ vo ≤ i ∧ i ≤ pubBound ve := by
  unfold publishedOffsets
  by_cases h : vo ≤ pubBound ve
  · rw [if_pos h]
    rw [List.mem_range'_1]
    omega
  · rw [if_neg h]
    simp only [List.not_mem_nil, false_iff]
    omega

theorem nodup_publishedOffsets (vo ve : ℕ) : (publishedOffsets vo ve).Nodup := by
  unfold publishedOffsets
  by_cases h : vo ≤ pubBound ve
  · rw [if_pos h]; exact List.nodup_range' _ _
  · rw [if_neg h]; exact List.nodup_nil

theorem copyUntilNul_eq (v : List ℕ) : ∀ (log : ℤ → ℕ) (p : ℤ),
    (∀ j, j < v.length → log (p + (j : ℤ)) = v.getD j 0) → (∀ b ∈ v, b ≠ 0) →
    copyUntilNul log p v.length = v := by
  induction v with
  | nil => intro log p _ _; rfl
  | cons c t ih =>
    intro log p hread hnul
    have h0 : log p = c := by
      have := hread 0 (by simp)
      simpa using this
    have hc : c ≠ 0 := hnul c (List.mem_cons_self c t)
    show copyUntilNul log p (t.length + 1) = c :: t
    unfold copyUntilNul
    rw [h0, if_neg hc]
    congr 1
    apply ih
    · intro j hj
      have := hread (j + 1) (by simpa using Nat.succ_lt_succ hj)
      have harg : p + ((j : ℤ) + 1) = p + 1 + (j : ℤ) := by ring
      push_cast at this
      rw [harg] at this
      simpa using this
    · intro b hb; exact hnul b (List.mem_cons_of_mem c hb)

theorem copyUntilNul_congr (n : ℕ) : ∀ (log1 log2 : ℤ → ℕ) (p : ℤ),
    (∀ j : ℕ, j < n → log1 (p + (j : ℤ)) = log2 (p + (j : ℤ))) →
    copyUntilNul log1 p n = copyUntilNul log2 p n := by
  induction n with
  | zero => intro log1 log2 p _; rfl
  | succ m ih =>
    intro log1 log2 p hsame
    have h0 : log1 p = log2 p := by
      have := hsame 0 (by omega)
      simpa using this
    unfold copyUntilNul
    rw [h0]
    by_cases hz : log2 p = 0
    · rw [if_pos hz, if_pos hz]
    · rw [if_neg hz, if_neg hz]
      congr 1
      apply ih
      intro j hj
      have := hsame (j + 1) (by omega)
      have harg : p + ((j : ℤ) + 1) = p + 1 + (j : ℤ) := by ring
      push_cast at this
      rw [harg] at this
      exact this

theorem memcpy_read (log : ℤ → ℕ) (off : ℕ) (v : List ℕ) (j : ℕ) (hj : j < v.length) :
    memcpy log off v ((off : ℤ) + (j : ℤ)) = v.getD j 0 := by
  unfold memcpy
  rw [if_pos (by constructor <;> [omega; (push_cast; omega)])]
  congr 1
  omega

theorem memcpy_lt (log : ℤ → ℕ) (off : ℕ) (v : List ℕ) (p : ℤ) (hp : p < (off : ℤ)) :
    memcpy log off v p = log p := by
  unfold memcpy
  rw [if_neg]
  intro hcon
  omega

theorem subset_find_and_insert_key (s : LogStore) (keys : Finset ℕ) (offset max_key max_off : ℕ) :
    keys ⊆ find_and_insert_key s keys offset max_key max_off := by
  unfold find_and_insert_key
  by_cases h : s.deleted (resolveKey s.value_offsets offset max_key) ≠ 0 ∧
      max_off ≥ s.deleted (resolveKey s.value_offsets offset max_key)
  · rw [if_pos h]
  · rw [if_neg h]; exact Finset.subset_insert _ _

theorem foldl_subset (f : Finset ℕ → ℕ → Finset ℕ) (hf : ∀ acc x, acc ⊆ f acc x) :
    ∀ (l : List ℕ) (acc : Finset ℕ), acc ⊆ l.foldl f acc := by
  intro l
  induction l with
  | nil => intro acc; simp
  | cons a t ih =>
    intro acc
    rw [List.foldl_cons]
    exact (hf acc a).trans (ih (f acc a))

theorem foldl_nonempty (f : Finset ℕ → ℕ → Finset ℕ) (hf : ∀ acc x, acc ⊆ f acc x) (o : ℕ)
    (hins : ∀ acc, (f acc o).Nonempty) :
    ∀ (l : List ℕ) (acc : Finset ℕ), o ∈ l → (l.foldl f acc).Nonempty := by
  intro l
  induction l with
  | nil => intro acc h; simp at h
  | cons a t ih =>
    intro acc ho
    rw [List.foldl_cons]
    rcases List.mem_cons.mp ho with h | h
    · subst h
      exact (hins acc).mono (foldl_subset f hf t (f acc o))
    · exact ih (f acc a) h

end Slog
namespace Slog

theorem bsearchGo_spec (O : ℕ → ℕ) (offset max_key : ℕ)
    (hmono : ∀ i j, i ≤ j → j < max_key → O i ≤ O j) :
    ∀ fuel lo hi, hi - lo ≤ fuel → lo ≤ hi → hi ≤ max_key →
      (∀ i, i < lo → O i ≤ offset) → (∀ i, hi ≤ i → i < max_key → offset < O i) →
      lo ≤ bsearchGo O offset fuel lo hi ∧ bsearchGo O offset fuel lo hi ≤ hi ∧
      (∀ i, i < bsearchGo O offset fuel lo hi → O i ≤ offset) ∧
      (∀ i, bsearchGo O offset fuel lo hi ≤ i → i < max_key → offset < O i) := by
  intro fuel
  induction fuel with
  | zero =>
    intro lo hi hfuel hlh hhm hlow hhigh
    simp only [bsearchGo]
    exact ⟨le_refl _, by omega, hlow, fun i hli him => hhigh i (by omega) him⟩
  | succ fuel ih =>
    intro lo hi hfuel hlh hhm hlow hhigh
    simp only [bsearchGo]
    by_cases hlt : lo < hi
    · rw [if_pos hlt]
      by_cases hcmp : O (lo + (hi - lo) / 2) ≤ offset
      · rw [if_pos hcmp]
        obtain ⟨hr1, hr2, hr3, hr4⟩ :=
          ih (lo + (hi - lo) / 2 + 1) hi (by omega) (by omega) hhm
            (fun i hi2 => le_trans (hmono i (lo + (hi - lo) / 2) (by omega) (by omega)) hcmp)
            hhigh
        exact ⟨by omega, hr2, hr3, hr4⟩
      · rw [if_neg hcmp]
        obtain ⟨hr1, hr2, hr3, hr4⟩ :=
          ih lo (lo + (hi - lo) / 2) (by omega) (by omega) (by omega) hlow
            (fun i hmi him => lt_of_lt_of_le (not_le.mp hcmp) (hmono (lo + (hi - lo) / 2) i hmi him))
        exact ⟨hr1, by omega, hr3, hr4⟩
    · rw [if_neg hlt]
      exact ⟨le_refl _, by omega, hlow, fun i hli him => hhigh i (by omega) him⟩

theorem bsearch_spec (O : ℕ → ℕ) (offset max_key : ℕ)
    (hmono : ∀ i j, i ≤ j → j < max_key → O i ≤ O j) :
    bsearch O offset 0 max_key ≤ max_key ∧
    (∀ i, i < bsearch O offset 0 max_key → O i ≤ offset) ∧
    (∀ i, bsearch O offset 0 max_key ≤ i → i < max_key → offset < O i) := by
  have h := bsearchGo_spec O offset max_key hmono (max_key - 0) 0 max_key (by omega) (by omega)
    (by omega) (by omega) (by intro i h1 h2; omega)
  exact ⟨h.2.1, h.2.2.1, h.2.2.2⟩

theorem resolveKey_greatest (O : ℕ → ℕ) (offset max_key : ℕ)
    (hmono : ∀ i j, i ≤ j → j < max_key → O i ≤ O j)
    (h1 : 1 ≤ max_key) (hmk : max_key ≤ 2 ^ 32) (h0 : O 0 ≤ offset) :
    resolveKey O offset max_key < max_key ∧
    O (resolveKey O offset max_key) ≤ offset ∧
    (∀ j, j < max_key → O j ≤ offset → j ≤ resolveKey O offset max_key) := by
  obtain ⟨hle, hlow, hhigh⟩ := bsearch_spec O offset max_key hmono
  have hge1 : 1 ≤ bsearch O offset 0 max_key := by
    by_contra hcon
    exact absurd h0 (not_le.mpr (hhigh 0 (by omega) (by omega)))
  have hres : resolveKey O offset max_key = bsearch O offset 0 max_key - 1 := by
    unfold resolveKey
    omega
  refine ⟨by omega, ?_, ?_⟩
  · rw [hres]; exact hlow _ (by omega)
  · intro j hj hOj
    rw [hres]
    by_contra hcon
    exact absurd hOj (not_le.mpr (hhigh j (by omega) hj))

end Slog
namespace Slog

theorem internal_append_eq (MAX_KEYS LOG_SIZE : ℕ) (s : LogStore) (v : List ℕ) (k off ve : ℕ)
    (hW : s.write_tail = k * 2 ^ 32 + off) (hoff : off < 2 ^ 32)
    (hve : (off + v.length % 2 ^ 32) % 2 ^ 32 = ve)
    (hkey : k < MAX_KEYS) (hLS : ve < LOG_SIZE)
    (hloop : pubBound ve ≠ 2 ^ 32 - 1)
    (h64 : k * 2 ^ 32 + off + increment_tail (v.length % 2 ^ 32) < 2 ^ 64) :
    internal_append MAX_KEYS LOG_SIZE s v =
      some
        ({ s with
            write_tail := k * 2 ^ 32 + off + increment_tail (v.length % 2 ^ 32)
            value_offsets := Function.update s.value_offsets k off
            deleted := Function.update s.deleted k 0
            data_log := memcpy s.data_log off (v.take (v.length % 2 ^ 32))
            index_log := addOffsets s.index_log (memcpy s.data_log off (v.take (v.length % 2 ^ 32)))
              (publishedOffsets off ve) },
          k * 2 ^ 32 + off) := by
  simp only [internal_append, atomic_advance_write_tail, hW]
  rw [tailKey_mk k off hoff, tailOff_mk k off hoff, hve, Nat.mod_eq_of_lt h64,
    if_neg (by omega), if_neg hloop]

end Slog

namespace Slog

theorem append_eq (MAX_KEYS LOG_SIZE : ℕ) (s : LogStore) (v : List ℕ) (k off : ℕ)
    (hW : s.write_tail = k * 2 ^ 32 + off) (hR : s.read_tail = s.write_tail)
    (hoff : off < 2 ^ 32) (hk32 : k + 1 < 2 ^ 32)
    (hsum : off + v.length % 2 ^ 32 < 2 ^ 32)
    (hkey : k < MAX_KEYS) (hLS : off + v.length % 2 ^ 32 < LOG_SIZE)
    (hloop : pubBound (off + v.length % 2 ^ 32) ≠ 2 ^ 32 - 1) :
    append MAX_KEYS LOG_SIZE s v =
      some
        ({ s with
            write_tail := (k + 1) * 2 ^ 32 + (off + v.length % 2 ^ 32)
            read_tail := (k + 1) * 2 ^ 32 + (off + v.length % 2 ^ 32)
            value_offsets := Function.update s.value_offsets k off
            deleted := Function.update s.deleted k 0
            data_log := memcpy s.data_log off (v.take (v.length % 2 ^ 32))
            index_log := addOffsets s.index_log (memcpy s.data_log off (v.take (v.length % 2 ^ 32)))
              (publishedOffsets off (off + v.length % 2 ^ 32)) },
          k) := by
  have hvlt : v.length % 2 ^ 32 < 2 ^ 32 := Nat.mod_lt _ (by norm_num)
  have hinc : increment_tail (v.length % 2 ^ 32) = 2 ^ 32 + v.length % 2 ^ 32 :=
    increment_tail_eq _ hvlt
  have h64 : k * 2 ^ 32 + off + increment_tail (v.length % 2 ^ 32) < 2 ^ 64 := by
    rw [hinc]; omega
  have harith : k * 2 ^ 32 + off + increment_tail (v.length % 2 ^ 32) =
      (k + 1) * 2 ^ 32 + (off + v.length % 2 ^ 32) := by
    rw [hinc]; ring
  have hIA := internal_append_eq MAX_KEYS LOG_SIZE s v k off (off + v.length % 2 ^ 32) hW hoff
    (Nat.mod_eq_of_lt hsum) hkey hLS hloop h64
  simp only [append, hIA, Option.bind_eq_bind, Option.some_bind]
  simp only [atomic_advance_read_tail]
  rw [if_pos (by simp only [hR, hW])]
  simp only [Option.some_bind]
  rw [Nat.mod_eq_of_lt (by omega : k * 2 ^ 32 + off + increment_tail (v.length % 2 ^ 32) < 2 ^ 64)]
  rw [tailKey_mk k off hoff, harith]
  rfl

end Slog
namespace Slog

theorem get_fresh (s1 : LogStore) (k off : ℕ) (v : List ℕ)
    (hR : s1.read_tail = (k + 1) * 2 ^ 32 + (off + v.length))
    (hO : s1.value_offsets k = off)
    (hD : s1.deleted k = 0)
    (hread : ∀ j : ℕ, j < v.length → s1.data_log ((off : ℤ) + (j : ℤ)) = v.getD j 0)
    (hnul : ∀ b ∈ v, b ≠ 0)
    (hlen : off + v.length < 2 ^ 32) (_hk32 : k + 1 < 2 ^ 32) :
    get s1 k = some v := by
  simp only [get, hR, tailKey_mk (k + 1) (off + v.length) hlen,
    tailOff_mk (k + 1) (off + v.length) hlen]
  rw [if_neg (by omega)]
  rw [if_neg (by rw [hD]; simp)]
  rw [if_neg (by omega), hO]
  rw [u32sub_eq (off + v.length) off (by omega) (by omega)]
  have hminus : off + v.length - off = v.length := by omega
  rw [hminus]
  exact congrArg some (copyUntilNul_eq v s1.data_log off hread hnul)

theorem get_stable (s s1 : LogStore) (k off vlen i : ℕ)
    (hRs : s.read_tail = k * 2 ^ 32 + off)
    (hR1 : s1.read_tail = (k + 1) * 2 ^ 32 + (off + vlen))
    (hO1 : s1.value_offsets = Function.update s.value_offsets k off)
    (hD1 : s1.deleted = Function.update s.deleted k 0)
    (hL1 : ∀ p : ℤ, p < (off : ℤ) → s1.data_log p = s.data_log p)
    (hoff : off + vlen < 2 ^ 32) (_hk32 : k + 1 < 2 ^ 32) (hi : i < k)
    (hmono : ∀ a, a + 1 < k → s.value_offsets a ≤ s.value_offsets (a + 1))
    (hbnd : ∀ a, a < k → s.value_offsets a ≤ off)
    (hDzero : ∀ a, s.deleted a = 0) :
    get s1 i = get s i := by
  have hDs : s.deleted i = 0 := hDzero i
  have hD1i : s1.deleted i = 0 := by rw [hD1, Function.update_noteq (by omega)]; exact hDs
  have hO1i : s1.value_offsets i = s.value_offsets i := by
    rw [hO1, Function.update_noteq (by omega)]
  simp only [get, hRs, hR1, tailKey_mk k off (by omega), tailKey_mk (k + 1) (off + vlen) hoff,
    tailOff_mk k off (by omega), tailOff_mk (k + 1) (off + vlen) hoff]
  rw [if_neg (by omega : ¬i ≥ k + 1)]
  rw [if_neg (by omega)]
  by_cases h1 : i + 1 < k
  · rw [if_pos (by omega : i + 1 < k + 1)]
    rw [if_neg (by omega : ¬i ≥ k)]
    rw [if_neg (by omega)]
    rw [if_pos h1]
    have hO1i1 : s1.value_offsets (i + 1) = s.value_offsets (i + 1) := by
      rw [hO1, Function.update_noteq (by omega)]
    rw [hO1i, hO1i1]
    have hstart_le : s.value_offsets i ≤ s.value_offsets (i + 1) := hmono i h1
    have hstop_le : s.value_offsets (i + 1) ≤ off := hbnd (i + 1) h1
    have hstart_bd : s.value_offsets i ≤ off := hbnd i hi
    rw [u32sub_eq _ _ hstart_le (by omega)]
    refine congrArg some (copyUntilNul_congr _ _ _ _ ?_)
    intro j hj
    apply hL1
    omega
  · rw [if_pos (by omega : i + 1 < k + 1)]
    rw [if_neg (by omega : ¬i ≥ k)]
    rw [if_neg (by omega)]
    rw [if_neg h1]
    have hik : i + 1 = k := by omega
    have hO1k : s1.value_offsets (i + 1) = off := by
      rw [hO1, hik, Function.update_same]
    rw [hO1i, hO1k]
    have hstart_le : s.value_offsets i ≤ off := hbnd i hi
    rw [u32sub_eq _ _ hstart_le (by omega)]
    refine congrArg some (copyUntilNul_congr _ _ _ _ ?_)
    intro j hj
    apply hL1
    omega

end Slog
namespace Slog

theorem append_some_checks (MAX_KEYS LOG_SIZE : ℕ) (s : LogStore) (v : List ℕ) (k off : ℕ)
    (r : LogStore × ℕ) (hW : s.write_tail = k * 2 ^ 32 + off) (hoff : off < 2 ^ 32)
    (happ : append MAX_KEYS LOG_SIZE s v = some r) :
    k < MAX_KEYS ∧ (off + v.length % 2 ^ 32) % 2 ^ 32 < LOG_SIZE ∧
      pubBound ((off + v.length % 2 ^ 32) % 2 ^ 32) ≠ 2 ^ 32 - 1 := by
  by_cases hc : k ≥ MAX_KEYS ∨ (off + v.length % 2 ^ 32) % 2 ^ 32 ≥ LOG_SIZE
  · exfalso
    have hnone : append MAX_KEYS LOG_SIZE s v = none := by
      simp only [append, internal_append, atomic_advance_write_tail, hW,
        tailKey_mk k off hoff, tailOff_mk k off hoff]
      rw [if_pos hc]
      rfl
    rw [hnone] at happ
    exact Option.noConfusion happ
  · by_cases hg : pubBound ((off + v.length % 2 ^ 32) % 2 ^ 32) = 2 ^ 32 - 1
    · exfalso
      have hnone : append MAX_KEYS LOG_SIZE s v = none := by
        simp only [append, internal_append, atomic_advance_write_tail, hW,
          tailKey_mk k off hoff, tailOff_mk k off hoff]
        rw [if_neg hc, if_pos hg]
        rfl
      rw [hnone] at happ
      exact Option.noConfusion happ
    · push_neg at hc
      exact ⟨by omega, by omega, hg⟩

theorem runApps_get (MAX_KEYS LOG_SIZE : ℕ) (hMK : MAX_KEYS < 2 ^ 32) :
    ∀ (vs : List (List ℕ)) (s sf : LogStore) (k off : ℕ),
      s.write_tail = k * 2 ^ 32 + off → s.read_tail = s.write_tail → off < 2 ^ 32 →
      (∀ i, i + 1 < k → s.value_offsets i ≤ s.value_offsets (i + 1)) →
      (∀ i, i < k → s.value_offsets i ≤ off) →
      (∀ i, s.deleted i = 0) →
      off + (vs.map List.length).sum < 2 ^ 32 →
      (∀ v ∈ vs, ∀ b ∈ v, b ≠ 0) →
      run MAX_KEYS LOG_SIZE s (vs.map Op.app) = some sf →
      (∀ i, i < k → get sf i = get s i) ∧
      (∀ j, j < vs.length → get sf (k + j) = some (vs.getD j [])) := by
  intro vs
  induction vs with
  | nil =>
    intro s sf k off hW hR hoff hmono hbnd hDz hbudget hnul hrun
    simp only [List.map_nil, run] at hrun
    obtain rfl : s = sf := Option.some.inj hrun
    exact ⟨fun i _ => rfl, fun j hj => absurd hj (by simp)⟩
  | cons v t ih =>
    intro s sf k off hW hR hoff hmono hbnd hDz hbudget hnul hrun
    have hsums : (List.map List.length (v :: t)).sum =
        v.length + (List.map List.length t).sum := by simp
    have hvlen : v.length % 2 ^ 32 = v.length := Nat.mod_eq_of_lt (by omega)
    have hsum1 : off + v.length < 2 ^ 32 := by omega
    cases happ : append MAX_KEYS LOG_SIZE s v with
    | none =>
      simp only [List.map_cons, run, runOp, happ, Option.map_none'] at hrun
      exact Option.noConfusion hrun
    | some r =>
      obtain ⟨hkMK, hLSm, hloopm⟩ := append_some_checks MAX_KEYS LOG_SIZE s v k off r hW hoff happ
      have hLS1 : off + v.length < LOG_SIZE := by
        rw [hvlen, Nat.mod_eq_of_lt hsum1] at hLSm
        exact hLSm
      have hloop1 : pubBound (off + v.length) ≠ 2 ^ 32 - 1 := by
        rw [hvlen, Nat.mod_eq_of_lt hsum1] at hloopm
        exact hloopm
      have happEq := append_eq MAX_KEYS LOG_SIZE s v k off hW hR hoff (by omega)
        (by rw [hvlen]; omega) hkMK (by rw [hvlen]; exact hLS1) (by rw [hvlen]; exact hloop1)
      rw [hvlen, List.take_length] at happEq
      rw [happEq] at happ
      obtain rfl : r = _ := Option.some.inj happ.symm
      simp only [List.map_cons, run, runOp, happEq, Option.map_some'] at hrun
      obtain ⟨hpres, hnew⟩ := ih _ sf (k + 1) (off + v.length) (by simp) (by simp)
        (by omega)
        (by
          intro i hi1
          simp only
          by_cases hik : i + 1 = k
          · rw [Function.update_noteq (by omega), hik, Function.update_same]
            exact hbnd i (by omega)
          · rw [Function.update_noteq (by omega), Function.update_noteq (by omega)]
            exact hmono i (by omega))
        (by
          intro i hi1
          simp only
          by_cases hik : i = k
          · rw [hik, Function.update_same]; omega
          · rw [Function.update_noteq hik]
            have := hbnd i (by omega)
            omega)
        (by
          intro i
          simp only
          by_cases hik : i = k
          · rw [hik, Function.update_same]
          · rw [Function.update_noteq hik]; exact hDz i)
        (by omega)
        (fun w hw => hnul w (by simp [hw]))
        hrun
      have hstab : ∀ i, i < k → get sf i = get s i := by
        intro i hi
        rw [hpres i (by omega)]
        exact get_stable s _ k off v.length i (by rw [hR, hW]) (by simp)
          (by simp) (by simp) (fun p hp => memcpy_lt _ _ _ _ hp) hsum1 (by omega) hi
          hmono hbnd hDz
      constructor
      · exact hstab
      · intro j hj
        cases j with
        | zero =>
          rw [Nat.add_zero, hpres k (by omega)]
          refine get_fresh _ k off v (by simp) (by simp [Function.update_same])
            (by simp [Function.update_same]) ?_ (fun b hb => hnul v (by simp) b hb)
            hsum1 (by omega)
          intro j hjv
          simpa using memcpy_read s.data_log off v j hjv
        | succ j =>
          have hn := hnew j (by simpa using hj)
          rw [show k + (j + 1) = k + 1 + j by omega]
          rw [hn]
          simp

end Slog
namespace Slog

theorem update_token_zero (t : ℕ) : (t &&& (0xFFFFFFFF + 1) % 2 ^ 32) % 2 ^ 32 = 0 := by
  have h1 : (0xFFFFFFFF + 1) % 2 ^ 32 = 0 := by norm_num
  rw [h1, Nat.and_zero]
  rfl

theorem invalidate_zero (s : LogStore) (i : ℕ) : (invalidate_key s i 0).1 = s := by
  unfold invalidate_key deleted_update
  by_cases h : s.deleted i = 0
  · rw [if_pos h]
    show { s with deleted := Function.update s.deleted i 0 } = s
    have hupd : Function.update s.deleted i 0 = s.deleted := by
      rw [← h]
      exact Function.update_eq_self i s.deleted
    rw [hupd]
  · rw [if_neg h]

theorem update_record_eq_append (MAX_KEYS LOG_SIZE : ℕ) (s : LogStore) (i : ℕ) (v : List ℕ) :
    update_record MAX_KEYS LOG_SIZE s i v = append MAX_KEYS LOG_SIZE s v := by
  unfold update_record append
  cases hIA : internal_append MAX_KEYS LOG_SIZE s v with
  | none => rfl
  | some r =>
    simp only [Option.bind_eq_bind, Option.some_bind]
    rw [update_token_zero, invalidate_zero]

theorem append_commit_inv (MAX_KEYS LOG_SIZE : ℕ) (s : LogStore) (v : List ℕ)
    (k off offR : ℕ) (r : LogStore × ℕ)
    (hW : s.write_tail = k * 2 ^ 32 + off) (hR : s.read_tail = k * 2 ^ 32 + offR)
    (hoff : off < 2 ^ 32) (_hoffR : offR < 2 ^ 32)
    (happ : append MAX_KEYS LOG_SIZE s v = some r) : offR = off := by
  by_contra hne
  simp only [append, internal_append, atomic_advance_write_tail, hW,
    tailKey_mk k off hoff, tailOff_mk k off hoff] at happ
  by_cases hc : k ≥ MAX_KEYS ∨ (off + v.length % 2 ^ 32) % 2 ^ 32 ≥ LOG_SIZE
  · rw [if_pos hc] at happ
    exact Option.noConfusion happ
  · rw [if_neg hc] at happ
    by_cases hg : pubBound ((off + v.length % 2 ^ 32) % 2 ^ 32) = 2 ^ 32 - 1
    · rw [if_pos hg] at happ
      exact Option.noConfusion happ
    · rw [if_neg hg] at happ
      simp only [Option.bind_eq_bind, Option.some_bind, atomic_advance_read_tail] at happ
      rw [hR] at happ
      rw [if_neg (by omega : ¬k * 2 ^ 32 + offR = k * 2 ^ 32 + off)] at happ
      exact Option.noConfusion happ

end Slog
namespace Slog

theorem c9_step_app (MAX_KEYS LOG_SIZE : ℕ) (hMK : MAX_KEYS < 2 ^ 32) (s sf : LogStore)
    (v : List ℕ) (hInv : C9Inv MAX_KEYS s)
    (hbudget : tailOff s.write_tail + v.length % 2 ^ 32 < 2 ^ 32)
    (h : runOp MAX_KEYS LOG_SIZE s (.app v) = some sf) :
    C9Inv MAX_KEYS sf ∧ tailOff sf.write_tail = tailOff s.write_tail + v.length % 2 ^ 32 := by
  obtain ⟨k, off, offR, hW, hR, hor, hoff, hkMK, hmono, hbnd⟩ := hInv
  have htS : tailOff s.write_tail = off := by rw [hW, tailOff_mk k off hoff]
  rw [htS] at hbudget ⊢
  simp only [runOp] at h
  cases happ : append MAX_KEYS LOG_SIZE s v with
  | none => rw [happ] at h; exact Option.noConfusion h
  | some r =>
    rw [happ, Option.map_some'] at h
    obtain ⟨hkMK2, hLS2, hloop2⟩ := append_some_checks MAX_KEYS LOG_SIZE s v k off r hW hoff happ
    have hcommit : offR = off :=
      append_commit_inv MAX_KEYS LOG_SIZE s v k off offR r hW hR hoff (by omega) happ
    rw [Nat.mod_eq_of_lt (by omega : off + v.length % 2 ^ 32 < 2 ^ 32)] at hLS2 hloop2
    have happEq := append_eq MAX_KEYS LOG_SIZE s v k off hW (by rw [hR, hW, hcommit])
      hoff (by omega) (by omega) hkMK2 hLS2 hloop2
    rw [happEq] at happ
    obtain rfl : r = _ := Option.some.inj happ.symm
    obtain rfl : _ = sf := Option.some.inj h
    refine ⟨⟨k + 1, off + v.length % 2 ^ 32, off + v.length % 2 ^ 32, rfl, rfl,
      le_refl _, by omega, by omega, ?_, ?_⟩, ?_⟩
    · intro i hi1
      simp only
      by_cases hik : i + 1 = k
      · rw [Function.update_noteq (by omega), hik, Function.update_same]
        have := hbnd i (by omega)
        omega
      · rw [Function.update_noteq (by omega), Function.update_noteq (by omega)]
        exact hmono i (by omega)
    · intro i hi1
      simp only
      by_cases hik : i = k
      · rw [hik, Function.update_same]; omega
      · rw [Function.update_noteq hik]
        have := hbnd i (by omega)
        omega
    · show tailOff ((k + 1) * 2 ^ 32 + (off + v.length % 2 ^ 32)) = off + v.length % 2 ^ 32
      rw [tailOff_mk (k + 1) (off + v.length % 2 ^ 32) (by omega)]

theorem c9_step_upd (MAX_KEYS LOG_SIZE : ℕ) (hMK : MAX_KEYS < 2 ^ 32) (s sf : LogStore)
    (i : ℕ) (v : List ℕ) (hInv : C9Inv MAX_KEYS s)
    (hbudget : tailOff s.write_tail + v.length % 2 ^ 32 < 2 ^ 32)
    (h : runOp MAX_KEYS LOG_SIZE s (.upd i v) = some sf) :
    C9Inv MAX_KEYS sf ∧ tailOff sf.write_tail = tailOff s.write_tail + v.length % 2 ^ 32 := by
  refine c9_step_app MAX_KEYS LOG_SIZE hMK s sf v hInv hbudget ?_
  simp only [runOp] at h ⊢
  rw [update_record_eq_append] at h
  exact h

theorem c9_step_del (MAX_KEYS LOG_SIZE : ℕ) (hMK : MAX_KEYS < 2 ^ 32) (s sf : LogStore)
    (i : ℕ) (hInv : C9Inv MAX_KEYS s)
    (hbudget : tailOff s.write_tail + 1 < 2 ^ 32)
    (h : runOp MAX_KEYS LOG_SIZE s (.del i) = some sf) :
    C9Inv MAX_KEYS sf ∧ tailOff sf.write_tail = tailOff s.write_tail + 1 := by
  obtain ⟨k, off, offR, hW, hR, hor, hoff, hkMK, hmono, hbnd⟩ := hInv
  have htS : tailOff s.write_tail = off := by rw [hW, tailOff_mk k off hoff]
  rw [htS] at hbudget ⊢
  have h64 : k * 2 ^ 32 + off + 1 < 2 ^ 64 := by omega
  have hassoc : k * 2 ^ 32 + off + 1 = k * 2 ^ 32 + (off + 1) := by omega
  have htS1 : tailOff (k * 2 ^ 32 + (off + 1)) = off + 1 :=
    tailOff_mk k (off + 1) (by omega)
  simp only [runOp, delete_record, atomic_advance_write_tail, DEL_INCR, hW,
    tailKey_mk k off hoff, tailOff_mk k off hoff] at h
  rw [Nat.mod_eq_of_lt (by omega : off + 1 < 2 ^ 32), Nat.mod_eq_of_lt h64, hassoc] at h
  by_cases hLS : off + 1 ≥ LOG_SIZE
  · rw [if_pos hLS] at h
    exact Option.noConfusion h
  · rw [if_neg hLS] at h
    by_cases hik : i ≥ k
    · rw [if_pos hik, Option.map_some'] at h
      obtain rfl : _ = sf := Option.some.inj h
      exact ⟨⟨k, off + 1, offR, rfl, hR, by omega, by omega, hkMK, hmono,
        fun a ha => hbnd a ha⟩, htS1⟩
    · rw [if_neg hik] at h
      simp only [invalidate_key, deleted_update] at h
      by_cases hdel : s.deleted i = 0
      · rw [if_pos hdel] at h
        simp only [atomic_advance_read_tail] at h
        rw [hR] at h
        by_cases hcas : offR = off
        · rw [if_pos (by rw [hcas])] at h
          rw [Nat.mod_eq_of_lt h64, hassoc, Option.map_some'] at h
          obtain rfl : _ = sf := Option.some.inj h
          refine ⟨⟨k, off + 1, off + 1, rfl, rfl, le_refl _, by omega, hkMK, hmono, ?_⟩, htS1⟩
          intro a ha
          simp only
          have := hbnd a ha
          omega
        · rw [if_neg (by omega : ¬k * 2 ^ 32 + offR = k * 2 ^ 32 + off)] at h
          exact Option.noConfusion h
      · rw [if_neg hdel, Option.map_some'] at h
        obtain rfl : _ = sf := Option.some.inj h
        exact ⟨⟨k, off + 1, offR, rfl, hR, by omega, by omega, hkMK, hmono,
          fun a ha => hbnd a ha⟩, htS1⟩

theorem c9_run (MAX_KEYS LOG_SIZE : ℕ) (hMK : MAX_KEYS < 2 ^ 32) :
    ∀ (ops : List Op) (s sf : LogStore),
      C9Inv MAX_KEYS s → tailOff s.write_tail + (ops.map opBytes).sum < 2 ^ 32 →
      run MAX_KEYS LOG_SIZE s ops = some sf → C9Inv MAX_KEYS sf := by
  intro ops
  induction ops with
  | nil =>
    intro s sf hInv _ hrun
    obtain rfl : s = sf := Option.some.inj hrun
    exact hInv
  | cons op rest ih =>
    intro s sf hInv hbudget hrun
    have hsum : (List.map opBytes (op :: rest)).sum =
        opBytes op + (List.map opBytes rest).sum := by simp
    cases hstep : runOp MAX_KEYS LOG_SIZE s op with
    | none =>
      simp only [run, hstep] at hrun
      exact Option.noConfusion hrun
    | some s1 =>
      simp only [run, hstep] at hrun
      have hInv1 : C9Inv MAX_KEYS s1 ∧
          tailOff s1.write_tail = tailOff s.write_tail + opBytes op := by
        cases op with
        | app v =>
          exact c9_step_app MAX_KEYS LOG_SIZE hMK s s1 v hInv
            (by simp only [opBytes] at hsum ⊢; omega) hstep
        | del i =>
          exact c9_step_del MAX_KEYS LOG_SIZE hMK s s1 i hInv
            (by simp only [opBytes] at hsum ⊢; omega) hstep
        | upd i v =>
          exact c9_step_upd MAX_KEYS LOG_SIZE hMK s s1 i v hInv
            (by simp only [opBytes] at hsum ⊢; omega) hstep
      exact ih s1 sf hInv1.1 (by rw [hInv1.2]; omega) hrun

end Slog
namespace Slog

/-- Claim C8, amended: for a query of length exactly N, `search` need not
return the empty result: both grams of the query coincide and the
remainder comparison is vacuous, so every posting of the gram that is
below the snapshot offset and resolves to a live key yields a result (the
length < N case remains undefined: the suffix-gram pointer
`substr + |Q| - N` underruns the query buffer). -/
theorem search_len_eq_ngram_nonempty (s : LogStore) (query : List ℕ) (o : ℕ)
    (hq : query.length = NGRAM_N)
    (ho : o ∈ s.index_log query)
    (hoff : o < tailOff s.read_tail)
    (hkeep : ¬(s.deleted (resolveKey s.value_offsets o (tailKey s.read_tail)) ≠ 0 ∧
      tailOff s.read_tail ≥ s.deleted (resolveKey s.value_offsets o (tailKey s.read_tail)))) :
    (search s query).Nonempty := by
  have ht : query.take NGRAM_N = query := by rw [← hq]; exact List.take_length query
  have hp0 : query.length - NGRAM_N = 0 := by omega
  simp only [search, hp0, List.drop_zero, ht, List.take_zero]
  rw [if_neg (lt_irrefl _)]
  apply foldl_nonempty _ ?hf o ?hins _ ∅ ho
  case hf =>
    intro acc x
    by_cases hc : x < tailOff s.read_tail ∧
        strncmpEq s.data_log ((x : ℤ) - (0 : ℕ)) [] 0 = true
    · rw [if_pos hc]
      exact subset_find_and_insert_key s acc x (tailKey s.read_tail) (tailOff s.read_tail)
    · rw [if_neg hc]
  case hins =>
    intro acc
    rw [if_pos ⟨hoff, rfl⟩]
    unfold find_and_insert_key
    rw [if_neg hkeep]
    exact Finset.insert_nonempty _ _

end Slog
namespace Slog

theorem pubBound_no_wrap (ve : ℕ) (h3 : NGRAM_N ≤ ve) (hlt : ve < 2 ^ 32) :
    pubBound ve = ve - NGRAM_N := by
  unfold pubBound u32sub NGRAM_N
  unfold NGRAM_N at h3
  omega

theorem pubBound_wrap (ve : ℕ) (h3 : ve < NGRAM_N) :
    pubBound ve = ve + 2 ^ 32 - NGRAM_N := by
  unfold pubBound u32sub NGRAM_N
  unfold NGRAM_N at h3
  omega

end Slog
namespace Slog

theorem append_eq_wrap (MAX_KEYS LOG_SIZE : ℕ) (s : LogStore) (v : List ℕ) (k off : ℕ)
    (hW : s.write_tail = k * 2 ^ 32 + off) (hR : s.read_tail = s.write_tail)
    (hoff : off < 2 ^ 32) (hk32 : k + 2 < 2 ^ 32)
    (hlo : 2 ^ 32 ≤ off + v.length % 2 ^ 32)
    (hkey : k < MAX_KEYS) (hLS : off + v.length % 2 ^ 32 - 2 ^ 32 < LOG_SIZE)
    (hloop : pubBound (off + v.length % 2 ^ 32 - 2 ^ 32) ≠ 2 ^ 32 - 1) :
    append MAX_KEYS LOG_SIZE s v =
      some
        ({ s with
            write_tail := (k + 2) * 2 ^ 32 + (off + v.length % 2 ^ 32 - 2 ^ 32)
            read_tail := (k + 2) * 2 ^ 32 + (off + v.length % 2 ^ 32 - 2 ^ 32)
            value_offsets := Function.update s.value_offsets k off
            deleted := Function.update s.deleted k 0
            data_log := memcpy s.data_log off (v.take (v.length % 2 ^ 32))
            index_log := addOffsets s.index_log (memcpy s.data_log off (v.take (v.length % 2 ^ 32)))
              (publishedOffsets off (off + v.length % 2 ^ 32 - 2 ^ 32)) },
          k) := by
  have hvlt : v.length % 2 ^ 32 < 2 ^ 32 := Nat.mod_lt _ (by norm_num)
  have hinc : increment_tail (v.length % 2 ^ 32) = 2 ^ 32 + v.length % 2 ^ 32 :=
    increment_tail_eq _ hvlt
  have h64 : k * 2 ^ 32 + off + increment_tail (v.length % 2 ^ 32) < 2 ^ 64 := by
    rw [hinc]; omega
  have harith : k * 2 ^ 32 + off + increment_tail (v.length % 2 ^ 32) =
      (k + 2) * 2 ^ 32 + (off + v.length % 2 ^ 32 - 2 ^ 32) := by
    rw [hinc]; omega
  have hve : (off + v.length % 2 ^ 32) % 2 ^ 32 = off + v.length % 2 ^ 32 - 2 ^ 32 := by
    omega
  have hIA := internal_append_eq MAX_KEYS LOG_SIZE s v k off
    (off + v.length % 2 ^ 32 - 2 ^ 32) hW hoff hve hkey hLS hloop h64
  simp only [append, hIA, Option.bind_eq_bind, Option.some_bind]
  simp only [atomic_advance_read_tail]
  rw [if_pos (by simp only [hR, hW])]
  simp only [Option.some_bind]
  rw [Nat.mod_eq_of_lt h64]
  rw [tailKey_mk k off hoff, harith]
  rfl

end Slog
namespace Slog

theorem run_cons_eq (MAX_KEYS LOG_SIZE : ℕ) (s s1 : LogStore) (op : Op) (rest : List Op)
    (h : runOp MAX_KEYS LOG_SIZE s op = some s1) :
    run MAX_KEYS LOG_SIZE s (op :: rest) = run MAX_KEYS LOG_SIZE s1 rest := by
  simp [run, h]

/-- Claim C9, counterexample: with the default template parameters, the
trace append(4294967294 bytes); append(7 bytes); append(1 byte) is
reachable because the bounds check `value_offset + value_length >= LOG_SIZE`
is computed on `uint32_t` and wraps to 5 on the second append.  The same
wrap carries into the key half of the packed fetch-and-add (the write tail
jumps from key 1 to key 3), so the committed state has num_keys = 4 with
O[1] = 4294967294, O[2] = 0 (never claimed) and O[3] = 5: the offset
table of committed keys is not monotone. -/
theorem wrapOps_offsets_not_monotone :
    (run MAX_KEYS_DEFAULT LOG_SIZE_DEFAULT initLogStore wrapOps).map
        (fun sf => (get_num_keys sf,
          decide (sf.value_offsets 1 ≤ sf.value_offsets 2 ∧
            sf.value_offsets 2 ≤ sf.value_offsets 3))) =
      some (4, false) := by
  have hlen1 : (List.replicate 4294967294 (97 : ℕ)).length = 4294967294 :=
    List.length_replicate _ _
  have hlen2 : (List.replicate 7 (97 : ℕ)).length = 7 := List.length_replicate _ _
  have h1 := append_eq MAX_KEYS_DEFAULT LOG_SIZE_DEFAULT initLogStore
    (List.replicate 4294967294 97) 0 0 (by norm_num [initLogStore]) rfl (by norm_num)
    (by norm_num) (by rw [hlen1]; norm_num) (by norm_num [MAX_KEYS_DEFAULT])
    (by rw [hlen1]; norm_num [LOG_SIZE_DEFAULT])
    (by rw [hlen1]; norm_num [pubBound, u32sub, NGRAM_N])
  obtain ⟨R1, hA1, hW1, hR1, hO1⟩ :
      ∃ R1, append MAX_KEYS_DEFAULT LOG_SIZE_DEFAULT initLogStore
          (List.replicate 4294967294 97) = some (R1, 0) ∧
        R1.write_tail = 1 * 2 ^ 32 + 4294967294 ∧
        R1.read_tail = R1.write_tail ∧
        R1.value_offsets = Function.update (fun _ => (0 : ℕ)) 0 0 :=
    ⟨_, h1, by rw [hlen1]; norm_num, rfl, rfl⟩
  have h2 := append_eq_wrap MAX_KEYS_DEFAULT LOG_SIZE_DEFAULT R1
    (List.replicate 7 97) 1 4294967294 hW1 hR1 (by norm_num) (by norm_num)
    (by rw [hlen2]; norm_num) (by norm_num [MAX_KEYS_DEFAULT])
    (by rw [hlen2]; norm_num [LOG_SIZE_DEFAULT])
    (by rw [hlen2]; norm_num [pubBound, u32sub, NGRAM_N])
  obtain ⟨R2, hA2, hW2, hR2, hO2⟩ :
      ∃ R2, append MAX_KEYS_DEFAULT LOG_SIZE_DEFAULT R1 (List.replicate 7 97) = some (R2, 1) ∧
        R2.write_tail = 3 * 2 ^ 32 + 5 ∧
        R2.read_tail = R2.write_tail ∧
        R2.value_offsets = Function.update R1.value_offsets 1 4294967294 :=
    ⟨_, h2, by rw [hlen2]; norm_num, rfl, rfl⟩
  have h3 := append_eq MAX_KEYS_DEFAULT LOG_SIZE_DEFAULT R2 [97] 3 5 hW2 hR2 (by norm_num)
    (by norm_num) (by norm_num) (by norm_num [MAX_KEYS_DEFAULT]) (by norm_num [LOG_SIZE_DEFAULT])
    (by decide)
  obtain ⟨R3, hA3, hR3r, hO3⟩ :
      ∃ R3, append MAX_KEYS_DEFAULT LOG_SIZE_DEFAULT R2 [97] = some (R3, 3) ∧
        R3.read_tail = 4 * 2 ^ 32 + 6 ∧
        R3.value_offsets = Function.update R2.value_offsets 3 5 :=
    ⟨_, h3, by norm_num, rfl⟩
  have hs1 : runOp MAX_KEYS_DEFAULT LOG_SIZE_DEFAULT initLogStore
      (Op.app (List.replicate 4294967294 97)) = some R1 := by
    simp only [runOp, hA1, Option.map_some']
  have hs2 : runOp MAX_KEYS_DEFAULT LOG_SIZE_DEFAULT R1
      (Op.app (List.replicate 7 97)) = some R2 := by
    simp only [runOp, hA2, Option.map_some']
  have hs3 : runOp MAX_KEYS_DEFAULT LOG_SIZE_DEFAULT R2 (Op.app [97]) = some R3 := by
    simp only [runOp, hA3, Option.map_some']
  have hrun : run MAX_KEYS_DEFAULT LOG_SIZE_DEFAULT initLogStore wrapOps = some R3 := by
    rw [show wrapOps = Op.app (List.replicate 4294967294 97) ::
        [Op.app (List.replicate 7 97), Op.app [97]] from rfl]
    rw [run_cons_eq _ _ _ _ _ _ hs1, run_cons_eq _ _ _ _ _ _ hs2,
      run_cons_eq _ _ _ _ _ _ hs3]
    rfl
  rw [hrun, Option.map_some']
  have hnum : get_num_keys R3 = 4 := by
    rw [get_num_keys, hR3r, tailKey_mk 4 6 (by norm_num)]
  have hv1 : R3.value_offsets 1 = 4294967294 := by
    rw [hO3, Function.update_noteq (by norm_num), hO2, Function.update_same]
  have hv2 : R3.value_offsets 2 = 0 := by
    rw [hO3, Function.update_noteq (by norm_num), hO2, Function.update_noteq (by norm_num),
      hO1, Function.update_noteq (by norm_num)]
  have hv3 : R3.value_offsets 3 = 5 := by
    rw [hO3, Function.update_same]
  rw [hnum, hv1, hv2, hv3]
  decide

end Slog
namespace Slog

/-- Claim C1: the spec says `update_record(i, V)` tombstones the old key with
token `o' + 1` so that `get(i)` then misses.  In the source the token
expression `current_tail & 0xFFFFFFFF + 1` parses as
`current_tail & (0xFFFFFFFF + 1)` = 0, so no tombstone is written.  On the
failing input (append "abc" as key 0, then update key 0 with "dddd") the
update returns the fresh key 1, but the delete marker of key 0 is still 0
and `get(0)` still returns "abc" instead of missing. -/
theorem c1_update_record_tombstone_noop :
    (update_record MAX_KEYS_DEFAULT LOG_SIZE_DEFAULT abcStore 0 [100, 100, 100, 100]).map
        (fun r => (r.2, r.1.deleted 0, get r.1 0)) =
      some (1, 0, some [97, 98, 99]) := by decide

/-- Claim C2: with `LOG_SIZE = 16`, `append("abcdefghij")` succeeds with
key 0, but `append("klmnop")`, whose end offset is exactly 16, already
throws StoreFull because the bounds check uses
`value_offset + value_length >= LOG_SIZE` instead of `>`; the claimed
success with key 1 does not happen (and the third append is never
reached). -/
theorem c2_boundary_second_append_throws :
    (append MAX_KEYS_DEFAULT 16 initLogStore
        [97, 98, 99, 100, 101, 102, 103, 104, 105, 106]).map (fun r => r.2) = some 0 ∧
    ((append MAX_KEYS_DEFAULT 16 initLogStore
          [97, 98, 99, 100, 101, 102, 103, 104, 105, 106]).bind
        (fun r => append MAX_KEYS_DEFAULT 16 r.1 [107, 108, 109, 110, 111, 112])).map
        (fun r => r.2) = none := by decide

/-- Claim C3, counterexample: `get` copies bytes only up to the first NUL
byte, so appending the 3-byte value `"a\x00b"` and reading it back yields
just `"a"`, not the appended bytes. -/
theorem c3_counterexample_nul_byte :
    ((append MAX_KEYS_DEFAULT LOG_SIZE_DEFAULT initLogStore [97, 0, 98]).bind
        (fun r => get r.1 r.2)) = some [97] ∧
    some [97] ≠ some [97, 0, 98] := by decide

/-- Claim C3, amended: for every sequence of appends (no deletes or
updates) of values containing no NUL byte, with total length below 2^32
(beyond which the `uint32_t` arithmetic of the store wraps and the memcpy
overruns the byte log), and in which every append actually completes
(`run … = some sf`; an append whose end offset is `NGRAM_N - 1` spins
forever in the publication loop, is modelled `none`, and never commits its
key), `get(i)` returns exactly the bytes appended for key i. -/
theorem c3_appends_roundtrip (vs : List (List ℕ)) (sf : LogStore) (i : ℕ)
    (hnul : ∀ v ∈ vs, ∀ b ∈ v, b ≠ 0)
    (hbudget : (vs.map List.length).sum < 2 ^ 32)
    (hrun : run MAX_KEYS_DEFAULT LOG_SIZE_DEFAULT initLogStore (vs.map Op.app) = some sf)
    (hi : i < vs.length) :
    get sf i = some (vs.getD i []) := by
  have h := runApps_get MAX_KEYS_DEFAULT LOG_SIZE_DEFAULT (by norm_num [MAX_KEYS_DEFAULT]) vs
    initLogStore sf 0 0 (by norm_num [initLogStore]) rfl (by norm_num)
    (fun a ha => absurd ha (by omega)) (fun a ha => absurd ha (by omega))
    (fun a => rfl) (by omega) hnul hrun
  have h2 := h.2 i hi
  simpa using h2

/-- Witness for the amended claim C3 at a concrete two-value trace (first
value 3 bytes, so every append terminates). -/
theorem c3_appends_roundtrip_witness :
    (0 : ℕ) < 2 ∧ get roundtripStore 0 = some [104, 105, 106] :=
  ⟨by norm_num, c3_appends_roundtrip [[104, 105, 106], [119, 120]] roundtripStore 0
    (by decide) (by decide) rfl (by norm_num)⟩

/-- Claim C4: the spec says a delete whose tombstone CAS loses still
commits the claimed tail byte, so the read tail catches up on both paths.
In the source the losing path returns false without committing: after
append("abc"), a first `delete_record(0)` wins (returns true), and a second
`delete_record(0)` returns false leaving `write_tail - read_tail = 1`
forever (every later commit would spin on the missing byte). -/
theorem c4_delete_losing_path_leaves_gap :
    (delete_record LOG_SIZE_DEFAULT abcStore 0).map (fun r => r.2) = some true ∧
    (delete_record LOG_SIZE_DEFAULT abcDeletedStore 0).map
        (fun r => (r.2, get_gap r.1)) = some (false, 1) := by decide

/-- Claim C5: the spec requires the suffix branch of search to reject
candidates with `offset < prefix_len` so the remainder comparison never
indexes before the byte log.  The source has no such check: after
append("aaaa"), search("aaaa") takes the suffix branch, and candidate
offset 0 (which is < prefix_len = 1 and should be rejected per the claim)
is handed to `strncmp` with start index `0 - 1 = -1`, one byte before the
start of the log. -/
theorem c5_suffix_scan_reads_before_log :
    suffixBranchReads aaaaStore [97, 97, 97, 97] = [(0, -1), (1, 0)] ∧
    (0 : ℕ) < [97, 97, 97, 97].length - NGRAM_N ∧ (-1 : ℤ) < 0 := by decide

/-- Claim C6: given a snapshot with at least one key, a monotone offset
table, and `O[0] ≤ offset`, `find_and_insert_key` resolves the offset to
the greatest key i with `O[i] ≤ offset` by binary search, and then drops
the hit exactly when `D[i] ≠ 0 ∧ max_off ≥ D[i]`, inserting it
otherwise. -/
theorem c6_offset_to_key_resolution (s : LogStore) (keys : Finset ℕ)
    (offset max_key max_off : ℕ)
    (hmono : ∀ i ∈ Finset.range max_key, ∀ j ∈ Finset.range max_key, i ≤ j →
      s.value_offsets i ≤ s.value_offsets j)
    (h1 : 1 ≤ max_key) (hmk : max_key ≤ 2 ^ 32) (h0 : s.value_offsets 0 ≤ offset) :
    (resolveKey s.value_offsets offset max_key < max_key ∧
      s.value_offsets (resolveKey s.value_offsets offset max_key) ≤ offset ∧
      (∀ j, j < max_key → s.value_offsets j ≤ offset →
        j ≤ resolveKey s.value_offsets offset max_key)) ∧
    find_and_insert_key s keys offset max_key max_off =
      (if s.deleted (resolveKey s.value_offsets offset max_key) ≠ 0 ∧
          max_off ≥ s.deleted (resolveKey s.value_offsets offset max_key) then keys
        else insert (resolveKey s.value_offsets offset max_key) keys) := by
  have hm : ∀ i j, i ≤ j → j < max_key → s.value_offsets i ≤ s.value_offsets j :=
    fun i j hij hj => hmono i (Finset.mem_range.mpr (by omega)) j (Finset.mem_range.mpr hj) hij
  exact ⟨resolveKey_greatest s.value_offsets offset max_key hm h1 hmk h0, rfl⟩

/-- Witness for claim C6 on the concrete ramp offset table `i ↦ 2i` with
3 keys and query offset 4 (owning key 2). -/
theorem c6_offset_to_key_resolution_witness :
    ((1 : ℕ) ≤ 3 ∧ (3 : ℕ) ≤ 2 ^ 32 ∧ rampStore.value_offsets 0 ≤ 4) ∧
    ((resolveKey rampStore.value_offsets 4 3 < 3 ∧
        rampStore.value_offsets (resolveKey rampStore.value_offsets 4 3) ≤ 4 ∧
        (∀ j, j < 3 → rampStore.value_offsets j ≤ 4 →
          j ≤ resolveKey rampStore.value_offsets 4 3)) ∧
      find_and_insert_key rampStore ∅ 4 3 7 =
        (if rampStore.deleted (resolveKey rampStore.value_offsets 4 3) ≠ 0 ∧
            7 ≥ rampStore.deleted (resolveKey rampStore.value_offsets 4 3) then ∅
          else insert (resolveKey rampStore.value_offsets 4 3) ∅)) :=
  ⟨by decide, c6_offset_to_key_resolution rampStore ∅ 4 3 7 (by decide) (by decide)
    (by decide) (by decide)⟩

/-- Claim C8, counterexample: a query of length exactly N is claimed to
return no results, but after append("abc") the search for "abc" returns
the singleton {0}: both grams of the query coincide, the remainder
comparison is vacuous, and every committed posting of the gram is
resolved and inserted. -/
theorem c8_counterexample_len_n_query :
    ([97, 98, 99] : List ℕ).length ≤ NGRAM_N ∧ search abcStore [97, 98, 99] = {0} := by decide

/-- Witness for the amended claim C8 on a concrete store holding one
committed posting of the gram "abc". -/
theorem c8_search_len_n_witness :
    ([97, 98, 99] : List ℕ).length = NGRAM_N ∧ (search gramStore [97, 98, 99]).Nonempty :=
  ⟨by decide, search_len_eq_ngram_nonempty gramStore [97, 98, 99] 0 (by decide) (by decide)
    (by decide) (by decide)⟩

/-- Claim C9, amended: in every state reachable by a sequential trace of
appends, deletes and updates whose total byte consumption stays below 2^32
(so the `uint32_t` offset arithmetic cannot wrap), the offset table is
monotone on committed keys: `O[i] ≤ O[i+1]` whenever `i + 1 < num_keys`. -/
theorem c9_offset_monotonicity (ops : List Op) (sf : LogStore)
    (hbudget : (ops.map opBytes).sum < 2 ^ 32)
    (hrun : run MAX_KEYS_DEFAULT LOG_SIZE_DEFAULT initLogStore ops = some sf) :
    ∀ i, i + 1 < get_num_keys sf → sf.value_offsets i ≤ sf.value_offsets (i + 1) := by
  have hInv := c9_run MAX_KEYS_DEFAULT LOG_SIZE_DEFAULT (by norm_num [MAX_KEYS_DEFAULT]) ops
    initLogStore sf
    ⟨0, 0, 0, by norm_num [initLogStore], by norm_num [initLogStore], le_refl _,
      by norm_num, by norm_num, fun a ha => absurd ha (by omega),
      fun a ha => absurd ha (by omega)⟩
    (by simp only [initLogStore, tailOff, Nat.zero_and]; omega) hrun
  obtain ⟨k, off, offR, hW, hR, hor, hoff, hkMK, hmono, hbnd⟩ := hInv
  intro i hi
  rw [get_num_keys, hR, tailKey_mk k offR (by omega)] at hi
  exact hmono i hi

/-- Witness for the amended claim C9 at a concrete two-append trace. -/
theorem c9_offset_monotonicity_witness :
    ((([Op.app [5], Op.app [6, 7]].map opBytes).sum < 2 ^ 32) ∧
      run MAX_KEYS_DEFAULT LOG_SIZE_DEFAULT initLogStore [Op.app [5], Op.app [6, 7]] =
        some monoWitnessStore) ∧
    (0 + 1 < get_num_keys monoWitnessStore →
      monoWitnessStore.value_offsets 0 ≤ monoWitnessStore.value_offsets 1) :=
  ⟨⟨by decide, rfl⟩,
    c9_offset_monotonicity [Op.app [5], Op.app [6, 7]] monoWitnessStore (by decide) rfl 0⟩

/-- Claim C10, counterexample: for an append with `value_offset = 0` and
`value_length = 1` (so `value_end = 1 < NGRAM_N`), the claim says the
unsigned loop bound does not wrap and nothing beyond the value is
published; in fact `value_end - NGRAM_N` wraps to 2^32 - 2 and the loop
publishes an index entry at offset 1, beyond the appended value. -/
theorem c10_counterexample_wrap :
    (0 + 1 : ℕ) < NGRAM_N ∧ (0 + 1) ∈ publishedOffsets 0 ((0 + 1) % 2 ^ 32) := by
  constructor
  · decide
  · rw [mem_publishedOffsets]
    decide

/-- Claim C10, amended: when `value_offset + value_length ≥ NGRAM_N` the
publication loop publishes exactly one entry per position in
`[value_offset, value_offset + value_length - NGRAM_N]` and none outside;
but when `value_offset + value_length < NGRAM_N` the `uint32_t` bound
`value_end - NGRAM_N` wraps around and the loop publishes entries at
offsets beyond the appended value (in particular at `value_end` itself). -/
theorem c10_publication_loop (vo len i : ℕ) (hwrap : vo + len < 2 ^ 32) :
    (NGRAM_N ≤ vo + len →
      (publishedOffsets vo ((vo + len) % 2 ^ 32)).count i =
        if vo ≤ i ∧ i + NGRAM_N ≤ vo + len then 1 else 0) ∧
    (vo + len < NGRAM_N → (vo + len) ∈ publishedOffsets vo ((vo + len) % 2 ^ 32)) := by
  have hmod : (vo + len) % 2 ^ 32 = vo + len := Nat.mod_eq_of_lt hwrap
  rw [hmod]
  constructor
  · intro hN
    have hpb : pubBound (vo + len) = vo + len - NGRAM_N := pubBound_no_wrap _ hN hwrap
    by_cases hmem : vo ≤ i ∧ i + NGRAM_N ≤ vo + len
    · rw [if_pos hmem]
      apply List.count_eq_one_of_mem (nodup_publishedOffsets _ _)
      rw [mem_publishedOffsets, hpb]
      unfold NGRAM_N at hmem hN ⊢
      omega
    · rw [if_neg hmem]
      apply List.count_eq_zero_of_not_mem
      rw [mem_publishedOffsets, hpb]
      unfold NGRAM_N at hmem hN ⊢
      omega
  · intro hlt
    rw [mem_publishedOffsets, pubBound_wrap _ hlt]
    unfold NGRAM_N at hlt ⊢
    omega

/-- Witness for the amended claim C10 at `value_offset = 0`,
`value_length = 5`, position 1. -/
theorem c10_publication_loop_witness :
    (0 + 5 : ℕ) < 2 ^ 32 ∧
    ((NGRAM_N ≤ 0 + 5 →
        (publishedOffsets 0 ((0 + 5) % 2 ^ 32)).count 1 =
          if 0 ≤ 1 ∧ 1 + NGRAM_N ≤ 0 + 5 then 1 else 0) ∧
      (0 + 5 < NGRAM_N → (0 + 5) ∈ publishedOffsets 0 ((0 + 5) % 2 ^ 32))) :=
  ⟨by decide, c10_publication_loop 0 5 1 (by decide)⟩

end Slog

namespace Confluo

/-- Claim C7: the doc comment of `get_node` promises the node with the
largest version ≤ the query version, and the claim says this holds in
particular for chains containing a version-0 node.  Because the traversal
initializes `max_version = 0` and keeps a node only when
`version > max_version`, a version-0 node can never be selected (unless
queried at version 0 exactly).  Failing input: one chain, sum aggregator,
`seq_update(value 5, version 0)` (the chain correctly becomes [(5, 0)]);
`get(1)` then returns the zero 0 where the documented contract gives 5. -/
theorem c7_get_node_version_zero_bug :
    agg_get sumAggregator (agg_seq_update sumAggregator [[]] 0 5 0) 1 = 0 ∧
    spec_agg_get sumAggregator (agg_seq_update sumAggregator [[]] 0 5 0) 1 = 5 ∧
    agg_seq_update sumAggregator [[]] 0 5 0 = [[(5, 0)]] := by decide

end Confluo
